import Mathlib

/-!
Verification of the bible-api server (`main.go`) against its specification.

The development shallowly embeds the Go source:
* the text normalizer `clearText` (regex tag stripping, `strings.TrimSpace`,
  whitespace collapsing) as functions on `List Char` / `String`;
* the HTTP handlers `getRandomVerseHandler` / `healthHandler` /
  `respondWithError` as pure functions from the injected registry, pool and
  request path to a `Response` value plus a trace of database accesses;
* the startup / shutdown resource lifecycle (`initDatabases`, the deferred
  close loop in `main`, and `log.Fatalf` which exits without running defers)
  as an event-trace semantics.
-/

namespace BibleApi

/-- Characters allowed inside a generic tag by the Go regex character class
`[^ai <>]` of `textCleanRegex` (main.go line 43): anything except the literal
characters `a`, `i`, the space, `<` and `>`. -/
def isTagChar (c : Char) : Bool :=
  !(c == 'a' || c == 'i' || c == ' ' || c == '<' || c == '>')

/-- First alternative of `textCleanRegex`: `<S>\d+</S>` (a verse-number
marker).  Returns the length of the match starting at the head of `s`, if
any.  Go's `\d` is exactly `[0-9]`, i.e. `Char.isDigit`; the digit run is
maximal (backtracking to a shorter run can never make the literal `</S>`
match, since the following character would still be a digit). -/
def matchMarker (s : List Char) : Option Nat :=
  match s with
  | c1 :: c2 :: c3 :: t =>
    if c1 = '<' ∧ c2 = 'S' ∧ c3 = '>' then
      match t.takeWhile Char.isDigit, t.dropWhile Char.isDigit with
      | d :: ds, e1 :: e2 :: e3 :: e4 :: _ =>
        if e1 = '<' ∧ e2 = '/' ∧ e3 = 'S' ∧ e4 = '>' then
          some (3 + (d :: ds).length + 4)
        else none
      | _, _ => none
    else none
  | _ => none

/-- Second alternative of `textCleanRegex`: `</?[^ai <>]+/?>`.  Since `/` is
itself in the class `[^ai <>]`, a backtracking search is equivalent to:
after `<`, take the maximal run of class characters (at least one) and
require the next character to be `>`.  Returns the match length. -/
def matchTag (s : List Char) : Option Nat :=
  match s with
  | c1 :: t =>
    if c1 = '<' then
      match t.takeWhile isTagChar, t.dropWhile isTagChar with
      | c :: cs, d :: _ => if d = '>' then some ((c :: cs).length + 2) else none
      | _, _ => none
    else none
  | [] => none

/-- Leftmost-first match of `textCleanRegex` at the head of `s`: Go's regexp
tries the alternatives in order, so the `<S>\d+</S>` branch has priority. -/
def matchAt (s : List Char) : Option Nat :=
  match matchMarker s with
  | some n => some n
  | none => matchTag s

/-- `textCleanRegex.ReplaceAllString(text, "")` (main.go line 48): scan left
to right; at each position, if a match starts there remove it and continue
after it, otherwise keep the character.  Fuel-indexed so that the recursion
is structural; `stripTags` supplies fuel `s.length`, which is always
enough because every match has positive length. -/
def stripTagsAux : Nat → List Char → List Char
  | 0, s => s
  | _ + 1, [] => []
  | f + 1, c :: cs =>
    match matchAt (c :: cs) with
    | some n => stripTagsAux f (List.drop n (c :: cs))
    | none => c :: stripTagsAux f cs

/-- The tag-removal pass of `clearText`. -/
def stripTags (s : List Char) : List Char :=
  stripTagsAux s.length s

/-- Go's `unicode.IsSpace`, i.e. the Unicode `White_Space` property, used by
`strings.TrimSpace` (main.go line 49). -/
def goIsSpace (c : Char) : Bool :=
  let n := c.toNat
  (9 ≤ n && n ≤ 13) || n == 32 || n == 133 || n == 160 || n == 0x1680 ||
  (0x2000 ≤ n && n ≤ 0x200A) || n == 0x2028 || n == 0x2029 ||
  n == 0x202F || n == 0x205F || n == 0x3000

/-- `strings.TrimSpace` (main.go line 49): drop Unicode white space from both
ends. -/
def trimSpace (s : List Char) : List Char :=
  ((s.dropWhile goIsSpace).reverse.dropWhile goIsSpace).reverse

/-- The character class `\s` of Go's regexp package (`whitespaceRegex`,
main.go line 44): exactly `[\t\n\f\r ]` — note that it contains neither the
vertical tab (11) nor any non-ASCII white space. -/
def isPerlSpace (c : Char) : Bool :=
  let n := c.toNat
  n == 9 || n == 10 || n == 12 || n == 13 || n == 32

/-- `whitespaceRegex.ReplaceAllString(cleaned, " ")` (main.go line 50):
every maximal run of `\s` characters becomes a single ASCII space.  The
Boolean state records whether we are inside a run that has already emitted
its space. -/
def collapseAux : Bool → List Char → List Char
  | _, [] => []
  | inRun, c :: cs =>
    if isPerlSpace c then
      if inRun then collapseAux true cs else ' ' :: collapseAux true cs
    else c :: collapseAux false cs

/-- The whitespace-collapsing pass of `clearText`. -/
def collapseSpace (s : List Char) : List Char :=
  collapseAux false s

/-- `clearText` (main.go lines 47-52): regex removal, then `TrimSpace`, then
whitespace collapsing. -/
def clearText (text : String) : String :=
  String.mk (collapseSpace (trimSpace (stripTags text.data)))

/-- `true` iff the list contains two adjacent characters both satisfying `p`
(a run of two or more `p`-characters). -/
def hasTwoAdj (p : Char → Bool) : List Char → Bool
  | a :: b :: t => (p a && p b) || hasTwoAdj p (b :: t)
  | _ => false

/-- `true` iff the list neither starts nor ends with a Unicode white-space
character. -/
def edgeClean (l : List Char) : Bool :=
  (match l.head? with
   | some c => !goIsSpace c
   | none => true) &&
  (match l.getLast? with
   | some c => !goIsSpace c
   | none => true)

/-- Recognizer for a whole verse-number marker `<S>digits</S>` (the first
alternative of `textCleanRegex`). -/
def isMarkerSub (l : List Char) : Bool :=
  match l with
  | c1 :: c2 :: c3 :: t =>
    (c1 == '<' && c2 == 'S' && c3 == '>') &&
    decide (t.takeWhile Char.isDigit ≠ []) &&
    (t.dropWhile Char.isDigit == ['<', '/', 'S', '>'])
  | _ => false

/-- Recognizer for a whole bare tag `<w>` whose body `w` is nonempty and
contains none of `a`, `i`, space, `<`, `>` (the second alternative of
`textCleanRegex`). -/
def isBareTagSub (l : List Char) : Bool :=
  match l with
  | c1 :: t =>
    (c1 == '<') && decide (t.takeWhile isTagChar ≠ []) &&
    (t.dropWhile isTagChar == ['>'])
  | [] => false

/-! ### The HTTP surface -/

/-- The static translation registry (main.go lines 18-21). -/
def translations : List (String × String) :=
  [("KJV", "assets/KJV+.Sqlite3"), ("RST", "assets/RST+.Sqlite3")]

/-- Association-list lookup, modelling Go map indexing `m[k]`. -/
def alookup {α : Type} : List (String × α) → String → Option α
  | [], _ => none
  | (k, v) :: t, key => if k == key then some v else alookup t key

/-- Outcome of the random-verse query (main.go lines 122-137) against one
pooled database: either a successfully scanned row or a query/scan error.
The pool entry carries the outcome the next query would produce, making the
handler a pure function of the injected pool. -/
inductive DbResult where
  | row (bookNumber chapter verse : Nat) (text shortName longName : String)
  | failure (msg : String)
deriving DecidableEq

/-- `VerseResponse` (main.go lines 28-36). -/
structure VerseResponse where
  translation : String
  bookNumber : Nat
  bookTitle : String
  bookTitleShort : String
  chapter : Nat
  verse : Nat
  text : String
deriving DecidableEq

/-- The JSON value written back to the client: a verse object, an
`ErrorResponse` object `{"error": msg}` (main.go lines 38-40), or the health
object `{"status": ..., "translations": ...}` (main.go lines 173-176). -/
inductive RespBody where
  | verseObj (v : VerseResponse)
  | errorObj (msg : String)
  | healthObj (status : String) (available : List String)
deriving DecidableEq

/-- An HTTP response as assembled by the handlers: status code, declared
content type, whether the JSON encoder has HTML escaping enabled, and the
body value. -/
structure Response where
  status : Nat
  contentType : String
  escapeHTML : Bool
  body : RespBody
deriving DecidableEq

/-- A database access performed while handling a request: a lookup of the
translation in `dbPool`, or the execution of the random-verse query. -/
inductive DbAccess where
  | poolLookup (name : String)
  | query (name : String)
deriving DecidableEq

/-- An ASCII apostrophe (the Go code quotes translation names with `'%s'`). -/
def squote : String := String.singleton (Char.ofNat 39)

/-- `respondWithError` (main.go lines 157-161): sets the JSON content type,
writes the status code and encodes `ErrorResponse{Error: message}` with a
fresh `json.NewEncoder`, whose HTML escaping is left at its default
(enabled). -/
def respondWithError (message : String) (statusCode : Nat) : Response :=
  { status := statusCode
    contentType := "application/json"
    escapeHTML := true
    body := .errorObj message }

/-- The cutset test of `strings.Trim(path, "/")`. -/
def isSlash (c : Char) : Bool := c == '/'

/-- `strings.Trim(r.URL.Path, "/")` (main.go line 94). -/
def trimSlash (l : List Char) : List Char :=
  ((l.dropWhile isSlash).reverse.dropWhile isSlash).reverse

/-- `strings.Split(s, "/")` (main.go line 94). -/
def splitSlash : List Char → List (List Char)
  | [] => [[]]
  | c :: cs =>
    match splitSlash cs with
    | [] => [[c]]
    | h :: t => if c == '/' then [] :: h :: t else (c :: h) :: t

/-- The body of `getRandomVerseHandler` after the URL has been parsed
(main.go lines 102-154): registry check (no database access), pool lookup
under the read lock, query execution, text cleaning and response assembly.
Returns the response together with the trace of database accesses
performed.  The success path calls `encoder.SetEscapeHTML(false)` (line
152); every other path answers through `respondWithError`. -/
def handleTranslation (translationsReg : List (String × String))
    (dbPool : List (String × DbResult)) (translationName : String) :
    Response × List DbAccess :=
  match alookup translationsReg translationName with
  | none =>
    (respondWithError
      ("Translation " ++ squote ++ translationName ++ squote ++ " not found")
      404, [])
  | some _ =>
    match alookup dbPool translationName with
    | none =>
      (respondWithError
        ("Database for translation " ++ squote ++ translationName ++ squote ++
          " is not available") 503, [.poolLookup translationName])
    | some (.failure _) =>
      (respondWithError "Failed to retrieve verse" 500,
        [.poolLookup translationName, .query translationName])
    | some (.row bn ch vs tx sn ln) =>
      ({ status := 200
         contentType := "application/json"
         escapeHTML := false
         body := .verseObj
           { translation := translationName
             bookNumber := bn
             bookTitle := ln
             bookTitleShort := sn
             chapter := ch
             verse := vs
             text := clearText tx } },
        [.poolLookup translationName, .query translationName])

/-- `getRandomVerseHandler` (main.go lines 92-154), as a pure function of
the injected registry, pool and request path: split the trimmed path on
`/`; unless it has exactly two segments answer `400`; otherwise continue
with the second segment as the translation name. -/
def getRandomVerseHandler (translationsReg : List (String × String))
    (dbPool : List (String × DbResult)) (path : String) :
    Response × List DbAccess :=
  match splitSlash (trimSlash path.data) with
  | [_, tn] => handleTranslation translationsReg dbPool (String.mk tn)
  | _ => (respondWithError "Invalid URL format" 400, [])

/-- `healthHandler` (main.go lines 164-177): lists the pooled translation
names; its `json.NewEncoder` keeps the default HTML escaping. -/
def healthHandler (dbPool : List (String × DbResult)) : Response :=
  { status := 200
    contentType := "application/json"
    escapeHTML := true
    body := .healthObj "ok" (dbPool.map Prod.fst) }

/-! ### Startup / shutdown resource lifecycle -/

/-- The environment one registry entry meets at startup: the backing file is
absent (`os.Stat` fails), `sql.Open` fails, the liveness `Ping` fails, or
everything succeeds. -/
inductive FileStatus where
  | missing
  | openFail (msg : String)
  | pingFail (msg : String)
  | good

/-- A database handle lifecycle event. -/
inductive DbEvent where
  | opened (name : String)
  | closed (name : String)
deriving DecidableEq

/-- `initDatabases` (main.go lines 55-89) over the registry entries in
iteration order, threading the pool contents and the open/close event
trace: a missing file is skipped; an `sql.Open` error aborts with an error
(handles already in the pool stay open); a `Ping` failure closes the fresh
handle and skips; success registers the handle.  An empty final pool is an
error. -/
def initDatabasesAux :
    List (String × FileStatus) → List String → List DbEvent →
    Except String (List String) × List DbEvent
  | [], pool, evs =>
    if pool.length = 0 then (.error "no valid databases could be loaded", evs)
    else (.ok pool, evs)
  | (name, st) :: rest, pool, evs =>
    match st with
    | .missing => initDatabasesAux rest pool evs
    | .openFail m =>
      (.error ("failed to open database " ++ name ++ ": " ++ m), evs)
    | .pingFail _ =>
      initDatabasesAux rest pool (evs ++ [.opened name, .closed name])
    | .good => initDatabasesAux rest (pool ++ [name]) (evs ++ [.opened name])

/-- `initDatabases` starting from the empty pool. -/
def initDatabases (env : List (String × FileStatus)) :
    Except String (List String) × List DbEvent :=
  initDatabasesAux env [] []

/-- The handle lifecycle of `main` (main.go lines 211-248).  On an
initialization error `log.Fatalf` calls `os.Exit(1)`, so the deferred close
loop (lines 219-224) never runs — it is registered after the check anyway.
Otherwise the server runs; `serveErr` is the result of
`http.ListenAndServe`: on a non-nil error `log.Fatalf` again exits without
running the deferred closes, and only if it returned `nil` would `main`
return normally and the deferred loop close every pooled handle. -/
def mainEvents (env : List (String × FileStatus)) (serveErr : Option String) :
    List DbEvent :=
  match initDatabases env with
  | (.error _, evs) => evs
  | (.ok pool, evs) =>
    match serveErr with
    | some _ => evs
    | none => evs ++ pool.map DbEvent.closed

/-! ### Helper lemmas: takeWhile / dropWhile -/

theorem takeWhile_eq_self_of_all {p : Char → Bool} :
    ∀ {u : List Char}, (∀ c ∈ u, p c = true) →
      u.takeWhile p = u ∧ u.dropWhile p = [] := by
  intro u
  induction u with
  | nil => intro _; exact ⟨rfl, rfl⟩
  | cons a t ih =>
    intro h
    have ha : p a = true := h a (List.mem_cons_self a t)
    have ht := ih (fun c hc => h c (List.mem_cons_of_mem a hc))
    simp [List.takeWhile_cons, List.dropWhile_cons, ha, ht.1, ht.2]

theorem takeWhile_append_stop {p : Char → Bool} {b : Char} {v : List Char}
    (hb : p b = false) :
    ∀ {u : List Char}, (∀ c ∈ u, p c = true) →
      (u ++ b :: v).takeWhile p = u ∧ (u ++ b :: v).dropWhile p = b :: v := by
  intro u
  induction u with
  | nil => intro _; simp [List.takeWhile_cons, List.dropWhile_cons, hb]
  | cons a t ih =>
    intro h
    have ha : p a = true := h a (List.mem_cons_self a t)
    have ht := ih (fun c hc => h c (List.mem_cons_of_mem a hc))
    simp [List.takeWhile_cons, List.dropWhile_cons, ha, ht.1, ht.2]

/-! ### Helper lemmas: the regex matchers -/

theorem matchMarker_ge {s : List Char} {n : Nat} (h : matchMarker s = some n) :
    8 ≤ n := by
  unfold matchMarker at h
  split at h
  · split at h
    · split at h
      · split at h
        · simp only [Option.some.injEq, List.length_cons] at h
          omega
        · exact absurd h (by simp)
      · exact absurd h (by simp)
    · exact absurd h (by simp)
  · exact absurd h (by simp)

theorem matchTag_ge {s : List Char} {n : Nat} (h : matchTag s = some n) :
    3 ≤ n := by
  unfold matchTag at h
  split at h
  · split at h
    · split at h
      · split at h
        · simp only [Option.some.injEq, List.length_cons] at h
          omega
        · exact absurd h (by simp)
      · exact absurd h (by simp)
    · exact absurd h (by simp)
  · exact absurd h (by simp)

theorem matchAt_ge {s : List Char} {n : Nat} (h : matchAt s = some n) :
    3 ≤ n := by
  unfold matchAt at h
  split at h
  · next heq => cases h; exact le_trans (by omega) (matchMarker_ge heq)
  · exact matchTag_ge h

theorem matchAt_nil : matchAt [] = none := rfl

theorem matchMarker_head {c : Char} {cs : List Char} {n : Nat}
    (h : matchMarker (c :: cs) = some n) : c = '<' := by
  unfold matchMarker at h
  split at h
  · next c1 c2 c3 t heq =>
    split at h
    · next hcond =>
      injection heq with h1 _
      exact h1.trans hcond.1
    · exact absurd h (by simp)
  · next hne => exact absurd h (by simp)

theorem matchTag_head {c : Char} {cs : List Char} {n : Nat}
    (h : matchTag (c :: cs) = some n) : c = '<' := by
  unfold matchTag at h
  split at h
  · next c1 t heq =>
    split at h
    · next hc1 =>
      injection heq with h1 _
      exact h1.trans hc1
    · exact absurd h (by simp)
  · exact absurd h (by simp)

theorem matchAt_head {c : Char} {cs : List Char} {n : Nat}
    (h : matchAt (c :: cs) = some n) : c = '<' := by
  unfold matchAt at h
  split at h
  · next heq => exact matchMarker_head heq
  · exact matchTag_head h

/-! ### Helper lemmas: stripTags -/

theorem stripTagsAux_nil (f : Nat) : stripTagsAux f [] = [] := by
  cases f <;> rfl

theorem stripTagsAux_eq_of_le :
    ∀ (f : Nat) {g : Nat} {s : List Char}, s.length ≤ f → s.length ≤ g →
      stripTagsAux f s = stripTagsAux g s := by
  intro f
  induction f with
  | zero =>
    intro g s hf _
    have : s = [] := List.eq_nil_of_length_eq_zero (Nat.le_zero.mp hf)
    subst this
    rw [stripTagsAux_nil, stripTagsAux_nil]
  | succ f ih =>
    intro g s hf hg
    cases s with
    | nil => rw [stripTagsAux_nil, stripTagsAux_nil]
    | cons c cs =>
      cases g with
      | zero => simp at hg
      | succ g =>
        show (match matchAt (c :: cs) with
          | some n => stripTagsAux f (List.drop n (c :: cs))
          | none => c :: stripTagsAux f cs) =
          (match matchAt (c :: cs) with
          | some n => stripTagsAux g (List.drop n (c :: cs))
          | none => c :: stripTagsAux g cs)
        cases hm : matchAt (c :: cs) with
        | some n =>
          have hn : 3 ≤ n := matchAt_ge hm
          have hlen : (List.drop n (c :: cs)).length ≤ f := by
            rw [List.length_drop]
            simp only [List.length_cons] at hf ⊢
            omega
          have hleng : (List.drop n (c :: cs)).length ≤ g := by
            rw [List.length_drop]
            simp only [List.length_cons] at hg ⊢
            omega
          simp only [ih hlen hleng]
        | none =>
          have hlen : cs.length ≤ f := by
            simp only [List.length_cons] at hf; omega
          have hleng : cs.length ≤ g := by
            simp only [List.length_cons] at hg; omega
          simp only [ih hlen hleng]

theorem stripTags_nil : stripTags [] = [] := rfl

theorem stripTags_cons_some {c : Char} {cs : List Char} {n : Nat}
    (h : matchAt (c :: cs) = some n) :
    stripTags (c :: cs) = stripTags (List.drop n (c :: cs)) := by
  have hn : 3 ≤ n := matchAt_ge h
  show stripTagsAux (cs.length + 1) (c :: cs) = _
  have step : stripTagsAux (cs.length + 1) (c :: cs) =
      stripTagsAux cs.length (List.drop n (c :: cs)) := by
    show (match matchAt (c :: cs) with
      | some n => stripTagsAux cs.length (List.drop n (c :: cs))
      | none => c :: stripTagsAux cs.length cs) = _
    rw [h]
  rw [step]
  exact stripTagsAux_eq_of_le cs.length
    (by rw [List.length_drop]; simp only [List.length_cons]; omega)
    (le_refl _)

theorem stripTags_cons_none {c : Char} {cs : List Char}
    (h : matchAt (c :: cs) = none) :
    stripTags (c :: cs) = c :: stripTags cs := by
  show stripTagsAux (cs.length + 1) (c :: cs) = _
  show (match matchAt (c :: cs) with
    | some n => stripTagsAux cs.length (List.drop n (c :: cs))
    | none => c :: stripTagsAux cs.length cs) = _
  rw [h]
  rfl

theorem length_stripTags_le :
    ∀ (f : Nat) (s : List Char), s.length ≤ f →
      (stripTags s).length ≤ s.length := by
  intro f
  induction f with
  | zero =>
    intro s hf
    have : s = [] := List.eq_nil_of_length_eq_zero (Nat.le_zero.mp hf)
    subst this
    simp [stripTags_nil]
  | succ f ih =>
    intro s hf
    cases s with
    | nil => simp [stripTags_nil]
    | cons c cs =>
      cases hm : matchAt (c :: cs) with
      | some n =>
        rw [stripTags_cons_some hm]
        have hn : 3 ≤ n := matchAt_ge hm
        have hdl : (List.drop n (c :: cs)).length ≤ f := by
          rw [List.length_drop]
          simp only [List.length_cons] at hf ⊢
          omega
        calc (stripTags (List.drop n (c :: cs))).length
            ≤ (List.drop n (c :: cs)).length := ih _ hdl
          _ ≤ (c :: cs).length := by
              rw [List.length_drop]; simp only [List.length_cons]; omega
      | none =>
        rw [stripTags_cons_none hm]
        have hcl : cs.length ≤ f := by
          simp only [List.length_cons] at hf; omega
        simp only [List.length_cons]
        exact Nat.succ_le_succ (ih _ hcl)

theorem stripTags_of_not_mem {s : List Char} (h : '<' ∉ s) :
    stripTags s = s := by
  induction s with
  | nil => exact stripTags_nil
  | cons c cs ih =>
    have hc : c ≠ '<' := fun hc => h (hc ▸ List.mem_cons_self c cs)
    have hm : matchAt (c :: cs) = none := by
      cases hm : matchAt (c :: cs) with
      | some n => exact absurd (matchAt_head hm) hc
      | none => rfl
    rw [stripTags_cons_none hm,
      ih (fun hmem => h (List.mem_cons_of_mem c hmem))]

/-! ### Helper lemmas: white space classes -/

theorem isPerlSpace_goIsSpace {c : Char} (h : isPerlSpace c = true) :
    goIsSpace c = true := by
  simp only [isPerlSpace, goIsSpace, Bool.or_eq_true, Bool.and_eq_true,
    beq_iff_eq, decide_eq_true_eq] at h ⊢
  omega

theorem isPerlSpace_of_not_go {c : Char} (h : goIsSpace c = false) :
    isPerlSpace c = false := by
  cases hp : isPerlSpace c with
  | false => rfl
  | true => rw [isPerlSpace_goIsSpace hp] at h; cases h

theorem isPerlSpace_space : isPerlSpace ' ' = true := by decide

/-! ### Helper lemmas: trimSpace -/

theorem head?_dropWhile {p : Char → Bool} :
    ∀ {l : List Char} {c : Char}, (l.dropWhile p).head? = some c → p c = false := by
  intro l
  induction l with
  | nil => intro c h; simp at h
  | cons a t ih =>
    intro c h
    by_cases ha : p a = true
    · rw [List.dropWhile_cons, if_pos ha] at h
      exact ih h
    · have ha' : p a = false := by simpa using ha
      rw [List.dropWhile_cons, if_neg (by simp [ha'])] at h
      simp only [List.head?_cons, Option.some.injEq] at h
      exact h ▸ ha'

theorem dropWhile_eq_self_of_head {p : Char → Bool} {l : List Char}
    (h : ∀ c, l.head? = some c → p c = false) : l.dropWhile p = l := by
  cases l with
  | nil => rfl
  | cons a t =>
    rw [List.dropWhile_cons, if_neg (by simp [h a rfl])]

theorem getLast?_reverse_eq (x : List Char) : x.reverse.getLast? = x.head? :=
  List.getLast?_reverse x

theorem getLast?_trimSpace {l : List Char} {c : Char}
    (h : (trimSpace l).getLast? = some c) : goIsSpace c = false := by
  unfold trimSpace at h
  rw [getLast?_reverse_eq] at h
  exact head?_dropWhile h

theorem getLast?_of_suffix {x y : List Char} (hs : x.IsSuffix y) {z : Char}
    (hx : x.getLast? = some z) : y.getLast? = some z := by
  obtain ⟨t, rfl⟩ := hs
  rw [List.getLast?_append, hx]
  rfl

theorem head?_trimSpace {l : List Char} {c : Char}
    (h : (trimSpace l).head? = some c) : goIsSpace c = false := by
  unfold trimSpace at h
  rw [List.head?_reverse] at h
  have hx := getLast?_of_suffix (List.dropWhile_suffix goIsSpace) h
  rw [getLast?_reverse_eq] at hx
  exact head?_dropWhile hx

theorem edgeClean_trimSpace (l : List Char) : edgeClean (trimSpace l) = true := by
  unfold edgeClean
  rw [Bool.and_eq_true]
  constructor
  · cases hh : (trimSpace l).head? with
    | none => rfl
    | some c => simp [head?_trimSpace hh]
  · cases hh : (trimSpace l).getLast? with
    | none => rfl
    | some c => simp [getLast?_trimSpace hh]

theorem trimSpace_eq_self_of_edgeClean {l : List Char}
    (h : edgeClean l = true) : trimSpace l = l := by
  unfold edgeClean at h
  rw [Bool.and_eq_true] at h
  have h1 : l.dropWhile goIsSpace = l := by
    apply dropWhile_eq_self_of_head
    intro c hc
    have := h.1
    rw [hc] at this
    simpa using this
  have h2 : l.reverse.dropWhile goIsSpace = l.reverse := by
    apply dropWhile_eq_self_of_head
    intro c hc
    rw [List.head?_reverse] at hc
    have := h.2
    rw [hc] at this
    simpa using this
  unfold trimSpace
  rw [h1, h2, List.reverse_reverse]

theorem mem_trimSpace {l : List Char} {c : Char} (h : c ∈ trimSpace l) :
    c ∈ l := by
  unfold trimSpace at h
  rw [List.mem_reverse] at h
  have h1 := (List.dropWhile_sublist goIsSpace).mem h
  rw [List.mem_reverse] at h1
  exact (List.dropWhile_sublist goIsSpace).mem h1

theorem length_trimSpace_le (l : List Char) :
    (trimSpace l).length ≤ l.length := by
  unfold trimSpace
  rw [List.length_reverse]
  calc ((l.dropWhile goIsSpace).reverse.dropWhile goIsSpace).length
      ≤ (l.dropWhile goIsSpace).reverse.length :=
        (List.dropWhile_sublist goIsSpace).length_le
    _ = (l.dropWhile goIsSpace).length := List.length_reverse _
    _ ≤ l.length := (List.dropWhile_sublist goIsSpace).length_le

/-! ### Helper lemmas: collapseSpace -/

theorem collapseAux_cons_ws_true {c : Char} {cs : List Char}
    (hc : isPerlSpace c = true) :
    collapseAux true (c :: cs) = collapseAux true cs := by
  simp [collapseAux, hc]

theorem collapseAux_cons_ws_false {c : Char} {cs : List Char}
    (hc : isPerlSpace c = true) :
    collapseAux false (c :: cs) = ' ' :: collapseAux true cs := by
  simp [collapseAux, hc]

theorem collapseAux_cons_not_ws {c : Char} {cs : List Char} (b : Bool)
    (hc : isPerlSpace c = false) :
    collapseAux b (c :: cs) = c :: collapseAux false cs := by
  simp [collapseAux, hc]

theorem length_collapseAux_le :
    ∀ (l : List Char) (b : Bool), (collapseAux b l).length ≤ l.length := by
  intro l
  induction l with
  | nil => intro b; simp [collapseAux]
  | cons c cs ih =>
    intro b
    by_cases hc : isPerlSpace c = true
    · cases b with
      | true =>
        rw [collapseAux_cons_ws_true hc]
        exact le_trans (ih true) (by simp)
      | false =>
        rw [collapseAux_cons_ws_false hc]
        simpa using ih true
    · have hc' : isPerlSpace c = false := by simpa using hc
      rw [collapseAux_cons_not_ws b hc']
      simpa using ih false

theorem mem_collapseAux :
    ∀ {l : List Char} (b : Bool) {c : Char},
      c ∈ collapseAux b l → c ∈ l ∨ c = ' ' := by
  intro l
  induction l with
  | nil => intro b c h; simp [collapseAux] at h
  | cons a t ih =>
    intro b c h
    by_cases ha : isPerlSpace a = true
    · cases b with
      | true =>
        rw [collapseAux_cons_ws_true ha] at h
        rcases ih true h with h' | h'
        · exact Or.inl (List.mem_cons_of_mem a h')
        · exact Or.inr h'
      | false =>
        rw [collapseAux_cons_ws_false ha] at h
        rcases List.mem_cons.mp h with h' | h'
        · exact Or.inr h'
        · rcases ih true h' with h'' | h''
          · exact Or.inl (List.mem_cons_of_mem a h'')
          · exact Or.inr h''
    · have ha' : isPerlSpace a = false := by simpa using ha
      rw [collapseAux_cons_not_ws b ha'] at h
      rcases List.mem_cons.mp h with h' | h'
      · exact Or.inl (h' ▸ List.mem_cons_self a t)
      · rcases ih false h' with h'' | h''
        · exact Or.inl (List.mem_cons_of_mem a h'')
        · exact Or.inr h''

theorem head?_collapseAux_true :
    ∀ {l : List Char} {c : Char},
      (collapseAux true l).head? = some c → isPerlSpace c = false := by
  intro l
  induction l with
  | nil => intro c h; simp [collapseAux] at h
  | cons a t ih =>
    intro c h
    by_cases ha : isPerlSpace a = true
    · rw [collapseAux_cons_ws_true ha] at h
      exact ih h
    · have ha' : isPerlSpace a = false := by simpa using ha
      rw [collapseAux_cons_not_ws true ha'] at h
      simp only [List.head?_cons, Option.some.injEq] at h
      exact h ▸ ha'

theorem hasTwoAdj_cons_cons (p : Char → Bool) (a b : Char) (t : List Char) :
    hasTwoAdj p (a :: b :: t) = ((p a && p b) || hasTwoAdj p (b :: t)) := rfl

theorem hasTwoAdj_collapseAux :
    ∀ (l : List Char) (b : Bool),
      hasTwoAdj isPerlSpace (collapseAux b l) = false := by
  intro l
  induction l with
  | nil => intro b; simp [collapseAux, hasTwoAdj]
  | cons a t ih =>
    intro b
    by_cases ha : isPerlSpace a = true
    · cases b with
      | true => rw [collapseAux_cons_ws_true ha]; exact ih true
      | false =>
        rw [collapseAux_cons_ws_false ha]
        cases hX : collapseAux true t with
        | nil => rfl
        | cons x xs =>
          rw [hasTwoAdj_cons_cons]
          have hx : isPerlSpace x = false :=
            head?_collapseAux_true (by rw [hX]; rfl)
          rw [hx, ← hX]
          simp [ih true]
    · have ha' : isPerlSpace a = false := by simpa using ha
      rw [collapseAux_cons_not_ws b ha']
      cases hX : collapseAux false t with
      | nil => rfl
      | cons x xs =>
        rw [hasTwoAdj_cons_cons, ha', ← hX]
        simp [ih false]

theorem getLast?_collapseAux :
    ∀ {l : List Char} (b : Bool) {z : Char},
      l.getLast? = some z → isPerlSpace z = false →
      (collapseAux b l).getLast? = some z := by
  intro l
  induction l with
  | nil => intro b z h _; simp at h
  | cons c cs ih =>
    intro b z h hz
    cases cs with
    | nil =>
      rw [List.getLast?_singleton] at h
      injection h with h
      subst h
      rw [collapseAux_cons_not_ws b hz]
      simp [collapseAux]
    | cons d t =>
      have h' : (d :: t).getLast? = some z := by
        rwa [List.getLast?_cons_cons] at h
      by_cases hc : isPerlSpace c = true
      · cases b with
        | true =>
          rw [collapseAux_cons_ws_true hc]
          exact ih true h' hz
        | false =>
          rw [collapseAux_cons_ws_false hc]
          have hx := ih true h' hz
          cases hX : collapseAux true (d :: t) with
          | nil => rw [hX] at hx; simp at hx
          | cons x xs => rw [hX] at hx; rw [List.getLast?_cons_cons]; exact hx
      · have hc' : isPerlSpace c = false := by simpa using hc
        rw [collapseAux_cons_not_ws b hc']
        have hx := ih false h' hz
        cases hX : collapseAux false (d :: t) with
        | nil => rw [hX] at hx; simp at hx
        | cons x xs => rw [hX] at hx; rw [List.getLast?_cons_cons]; exact hx

theorem edgeClean_collapseSpace {l : List Char} (h : edgeClean l = true) :
    edgeClean (collapseSpace l) = true := by
  unfold edgeClean at h ⊢
  rw [Bool.and_eq_true] at h ⊢
  constructor
  · cases l with
    | nil => rfl
    | cons c cs =>
      have hc : goIsSpace c = false := by
        have := h.1
        simpa using this
      rw [show collapseSpace (c :: cs) = c :: collapseAux false cs from
        collapseAux_cons_not_ws false (isPerlSpace_of_not_go hc)]
      simpa using hc
  · cases hl : l.getLast? with
    | none =>
      rw [List.getLast?_eq_none_iff] at hl
      subst hl
      rfl
    | some z =>
      have hz : goIsSpace z = false := by
        have := h.2
        rw [hl] at this
        simpa using this
      have hcg : (collapseSpace l).getLast? = some z :=
        getLast?_collapseAux false hl (isPerlSpace_of_not_go hz)
      rw [hcg]
      simpa using hz

theorem collapseAux_idem :
    ∀ (l : List Char) (b : Bool),
      collapseAux b (collapseAux b l) = collapseAux b l := by
  intro l
  induction l with
  | nil => intro b; simp [collapseAux]
  | cons c cs ih =>
    intro b
    by_cases hc : isPerlSpace c = true
    · cases b with
      | true => rw [collapseAux_cons_ws_true hc]; exact ih true
      | false =>
        rw [collapseAux_cons_ws_false hc,
          collapseAux_cons_ws_false isPerlSpace_space]
        rw [ih true]
    · have hc' : isPerlSpace c = false := by simpa using hc
      rw [collapseAux_cons_not_ws b hc', collapseAux_cons_not_ws b hc']
      rw [ih false]

/-! ### Normalizer claims -/

/-- C10: the text normalizer never lengthens its input: for every input
string `x`, the length of `clearText x` is at most the length of `x`. -/
theorem clearText_length_le (x : String) : (clearText x).length ≤ x.length := by
  show (collapseSpace (trimSpace (stripTags x.data))).length ≤ x.data.length
  calc (collapseSpace (trimSpace (stripTags x.data))).length
      ≤ (trimSpace (stripTags x.data)).length := length_collapseAux_le _ false
    _ ≤ (stripTags x.data).length := length_trimSpace_le _
    _ ≤ x.data.length := length_stripTags_le x.data.length x.data (le_refl _)

/-- C7 (amended): for every input, the output of `clearText` has no leading
and no trailing Unicode white-space character, and contains no run of two or
more characters of the regexp class `\s` = `[\t\n\f\r ]` (the class the
collapsing pass actually uses).  The original claim, with "whitespace"
read as Unicode white space, fails: see the counterexample. -/
theorem clearText_whitespace_law (x : String) :
    edgeClean (clearText x).data = true ∧
    hasTwoAdj isPerlSpace (clearText x).data = false := by
  constructor
  · exact edgeClean_collapseSpace (edgeClean_trimSpace _)
  · exact hasTwoAdj_collapseAux _ false

/-- C7 (counterexample): on `"a\x0B\x0Bb"` the normalizer returns the input
unchanged, so its output contains a run of two adjacent white-space
characters (the vertical tab is white space — `unicode.IsSpace` holds on it
— but is not in the regexp class `\s`, so the collapsing pass skips it). -/
theorem clearText_whitespace_run_cex :
    clearText "a\x0B\x0Bb" = "a\x0B\x0Bb" ∧
    hasTwoAdj goIsSpace (clearText "a\x0B\x0Bb").data = true := by
  constructor
  · decide
  · decide

/-- C2 (counterexample): `clearText` is not idempotent.  On
`"<S<b>>1</S>"` the single replacement pass removes `<b>` and `</S>`,
splicing the remains into `"<S>1"`, and a second application then removes
the freshly formed tag `<S>`. -/
theorem clearText_not_idempotent_cex :
    clearText (clearText "<S<b>>1</S>") ≠ clearText "<S<b>>1</S>" := by
  decide

/-- C2 (amended): `clearText` is idempotent on every input that contains no
`<` character (so the tag-removal pass cannot splice new tags); full
idempotence fails, see the counterexample. -/
theorem clearText_idempotent_of_no_lt (x : String) (h : '<' ∉ x.data) :
    clearText (clearText x) = clearText x := by
  have hstrip : stripTags x.data = x.data := stripTags_of_not_mem h
  have hy : (clearText x).data = collapseSpace (trimSpace x.data) := by
    show collapseSpace (trimSpace (stripTags x.data)) = _
    rw [hstrip]
  have hlt : '<' ∉ (clearText x).data := by
    rw [hy]
    intro hin
    rcases mem_collapseAux false hin with h1 | h1
    · exact h (mem_trimSpace h1)
    · exact absurd h1 (by decide)
  apply String.ext
  show collapseSpace (trimSpace (stripTags (clearText x).data)) = (clearText x).data
  rw [stripTags_of_not_mem hlt, hy,
    trimSpace_eq_self_of_edgeClean (edgeClean_collapseSpace (edgeClean_trimSpace _))]
  exact collapseAux_idem _ false

/-- C2 (witness): the amended idempotence at the concrete `<`-free input
`"a  b "`. -/
theorem clearText_idempotent_of_no_lt_witness :
    clearText (clearText "a  b ") = clearText "a  b " :=
  clearText_idempotent_of_no_lt "a  b " (by decide)

/-- C8: the documented tag-stripping example: the verse marker is removed,
the anchor tag is preserved, and the double space collapses to one. -/
theorem clearText_example :
    clearText "<S>1</S>In the <a href=\"x\">beginning</a>  God created" =
      "In the <a href=\"x\">beginning</a> God created" := by
  decide

/-! ### Matcher helpers for whole markers and whole bare tags -/

theorem isTagChar_spec {c : Char} (h : isTagChar c = true) :
    c ≠ 'a' ∧ c ≠ 'i' ∧ c ≠ ' ' ∧ c ≠ '<' ∧ c ≠ '>' := by
  simp only [isTagChar, Bool.not_eq_true', Bool.or_eq_false_iff,
    beq_eq_false_iff_ne, ne_eq] at h
  exact ⟨h.1.1.1.1, h.1.1.1.2, h.1.1.2, h.1.2, h.2⟩

theorem matchMarker_cons3 (c1 c2 c3 : Char) (t : List Char) :
    matchMarker (c1 :: c2 :: c3 :: t) =
      if c1 = '<' ∧ c2 = 'S' ∧ c3 = '>' then
        match t.takeWhile Char.isDigit, t.dropWhile Char.isDigit with
        | d :: ds, e1 :: e2 :: e3 :: e4 :: _ =>
          if e1 = '<' ∧ e2 = '/' ∧ e3 = 'S' ∧ e4 = '>' then
            some (3 + (d :: ds).length + 4)
          else none
        | _, _ => none
      else none := rfl

theorem matchTag_cons (c1 : Char) (t : List Char) :
    matchTag (c1 :: t) =
      if c1 = '<' then
        match t.takeWhile isTagChar, t.dropWhile isTagChar with
        | c :: cs, d :: _ => if d = '>' then some ((c :: cs).length + 2) else none
        | _, _ => none
      else none := rfl

theorem matchAt_eq_of_marker {s : List Char} {n : Nat}
    (h : matchMarker s = some n) : matchAt s = some n := by
  unfold matchAt
  rw [h]

theorem matchAt_eq_of_tag {s : List Char} (h : matchMarker s = none) :
    matchAt s = matchTag s := by
  unfold matchAt
  rw [h]

theorem matchMarker_none_of_bare {w : List Char} (hw : w ≠ [])
    (hall : ∀ c ∈ w, isTagChar c = true) :
    matchMarker ('<' :: (w ++ ['>'])) = none := by
  cases w with
  | nil => exact absurd rfl hw
  | cons a w2 =>
    cases w2 with
    | nil => simp [matchMarker, List.takeWhile, List.dropWhile]
    | cons b w3 =>
      have hb : isTagChar b = true :=
        hall b (List.mem_cons_of_mem a (List.mem_cons_self b w3))
      have hbne : b ≠ '>' := (isTagChar_spec hb).2.2.2.2
      show matchMarker ('<' :: a :: b :: (w3 ++ ['>'])) = none
      rw [matchMarker_cons3, if_neg (fun hcon => hbne hcon.2.2)]

theorem matchAt_bare {w : List Char} (hw : w ≠ [])
    (hall : ∀ c ∈ w, isTagChar c = true) :
    matchAt ('<' :: (w ++ ['>'])) = some (w.length + 2) := by
  rw [matchAt_eq_of_tag (matchMarker_none_of_bare hw hall)]
  have htw := takeWhile_append_stop (p := isTagChar) (b := '>') (v := [])
    (by decide) hall
  rw [matchTag_cons, if_pos rfl, htw.1, htw.2]
  cases w with
  | nil => exact absurd rfl hw
  | cons c cs => simp

theorem matchAt_marker {ds : List Char} (hds : ds ≠ [])
    (hall : ∀ c ∈ ds, c.isDigit = true) :
    matchAt ('<' :: 'S' :: '>' :: (ds ++ ['<', '/', 'S', '>'])) =
      some (3 + ds.length + 4) := by
  have htw := takeWhile_append_stop (p := Char.isDigit) (b := '<')
    (v := ['/', 'S', '>']) (by decide) hall
  apply matchAt_eq_of_marker
  rw [matchMarker_cons3, if_pos ⟨rfl, rfl, rfl⟩, htw.1, htw.2]
  cases ds with
  | nil => exact absurd rfl hds
  | cons d ds' => simp

theorem takeWhile_eq_nil_of_head {p : Char → Bool} {l : List Char}
    (h : ∀ c, l.head? = some c → p c = false) : l.takeWhile p = [] := by
  cases l with
  | nil => rfl
  | cons a t =>
    rw [List.takeWhile_cons, if_neg (by simp [h a rfl])]

/-- `matchMarker` fails at the head of a bare tag `<w>` even with an
arbitrary continuation `v`, provided `v` does not extend a `<S>` tag into a
longer `<S>digits</S>` marker. -/
theorem matchMarker_none_of_bare_front {w : List Char} (v : List Char)
    (hw : w ≠ []) (hall : ∀ c ∈ w, isTagChar c = true)
    (hS : w = ['S'] → v.takeWhile Char.isDigit = []) :
    matchMarker ('<' :: (w ++ '>' :: v)) = none := by
  cases w with
  | nil => exact absurd rfl hw
  | cons a w2 =>
    cases w2 with
    | nil =>
      show matchMarker ('<' :: a :: '>' :: v) = none
      by_cases ha : a = 'S'
      · subst ha
        rw [matchMarker_cons3, if_pos ⟨rfl, rfl, rfl⟩, hS rfl]
      · rw [matchMarker_cons3, if_neg (fun hcon => ha hcon.2.1)]
    | cons b w3 =>
      have hb : isTagChar b = true :=
        hall b (List.mem_cons_of_mem a (List.mem_cons_self b w3))
      have hbne : b ≠ '>' := (isTagChar_spec hb).2.2.2.2
      show matchMarker ('<' :: a :: b :: (w3 ++ '>' :: v)) = none
      rw [matchMarker_cons3, if_neg (fun hcon => hbne hcon.2.2)]

/-- At the head of a bare tag `<w>` followed by any continuation `v` that
does not extend a `<S>` tag into a marker, the scanner matches exactly the
tag, of length `w.length + 2`. -/
theorem matchAt_bare_front {w : List Char} (v : List Char) (hw : w ≠ [])
    (hall : ∀ c ∈ w, isTagChar c = true)
    (hS : w = ['S'] → v.takeWhile Char.isDigit = []) :
    matchAt ('<' :: (w ++ '>' :: v)) = some (w.length + 2) := by
  rw [matchAt_eq_of_tag (matchMarker_none_of_bare_front v hw hall hS)]
  have htw := takeWhile_append_stop (p := isTagChar) (b := '>') (v := v)
    (by decide) hall
  rw [matchTag_cons, if_pos rfl, htw.1, htw.2]
  cases w with
  | nil => exact absurd rfl hw
  | cons c cs => simp

/-- At the head of a whole marker `<S>digits</S>` followed by any
continuation `v`, the scanner matches exactly the marker. -/
theorem matchAt_marker_front {ds : List Char} (v : List Char) (hds : ds ≠ [])
    (hall : ∀ c ∈ ds, c.isDigit = true) :
    matchAt ('<' :: 'S' :: '>' :: (ds ++ '<' :: '/' :: 'S' :: '>' :: v)) =
      some (3 + ds.length + 4) := by
  have htw := takeWhile_append_stop (p := Char.isDigit) (b := '<')
    (v := '/' :: 'S' :: '>' :: v) (by decide) hall
  apply matchAt_eq_of_marker
  rw [matchMarker_cons3, if_pos ⟨rfl, rfl, rfl⟩, htw.1, htw.2]
  cases ds with
  | nil => exact absurd rfl hds
  | cons d ds' => simp

/-- A `<`-free prefix passes through the replacement scan untouched. -/
theorem stripTags_append_of_no_lt :
    ∀ {u : List Char}, '<' ∉ u → ∀ z, stripTags (u ++ z) = u ++ stripTags z := by
  intro u
  induction u with
  | nil => intro _ z; rfl
  | cons c u' ih =>
    intro h z
    have hc : c ≠ '<' := fun hc => h (hc ▸ List.mem_cons_self c u')
    have hm : matchAt (c :: (u' ++ z)) = none := by
      cases hm : matchAt (c :: (u' ++ z)) with
      | some n => exact absurd (matchAt_head hm) hc
      | none => rfl
    rw [List.cons_append, stripTags_cons_none hm,
      ih (fun hmem => h (List.mem_cons_of_mem c hmem)) z, List.cons_append]

/-- Splicing a whole marker into a context whose prefix is `<`-free changes
nothing after tag removal. -/
theorem stripTags_splice_marker {u ds : List Char} (v : List Char)
    (hu : '<' ∉ u) (hds : ds ≠ []) (hall : ∀ c ∈ ds, c.isDigit = true) :
    stripTags (u ++ ('<' :: 'S' :: '>' :: (ds ++ ['<', '/', 'S', '>'])) ++ v) =
      u ++ stripTags v := by
  have hnorm : u ++ ('<' :: 'S' :: '>' :: (ds ++ ['<', '/', 'S', '>'])) ++ v =
      u ++ ('<' :: 'S' :: '>' :: (ds ++ '<' :: '/' :: 'S' :: '>' :: v)) := by
    simp
  rw [hnorm, stripTags_append_of_no_lt hu,
    stripTags_cons_some (matchAt_marker_front v hds hall)]
  have hsplit : '<' :: 'S' :: '>' :: (ds ++ '<' :: '/' :: 'S' :: '>' :: v) =
      ('<' :: 'S' :: '>' :: (ds ++ ['<', '/', 'S', '>'])) ++ v := by
    simp
  have hlen : 3 + ds.length + 4 =
      ('<' :: 'S' :: '>' :: (ds ++ ['<', '/', 'S', '>'])).length := by
    simp [List.length_append]
    omega
  rw [hsplit, hlen, List.drop_left]

/-- Splicing a whole bare tag into a context whose prefix is `<`-free (and
whose continuation does not extend a `<S>` tag into a marker) changes
nothing after tag removal. -/
theorem stripTags_splice_tag {u w : List Char} (v : List Char)
    (hu : '<' ∉ u) (hw : w ≠ []) (hall : ∀ c ∈ w, isTagChar c = true)
    (hS : w = ['S'] → v.takeWhile Char.isDigit = []) :
    stripTags (u ++ ('<' :: (w ++ ['>'])) ++ v) = u ++ stripTags v := by
  have hnorm : u ++ ('<' :: (w ++ ['>'])) ++ v =
      u ++ ('<' :: (w ++ '>' :: v)) := by
    simp
  rw [hnorm, stripTags_append_of_no_lt hu,
    stripTags_cons_some (matchAt_bare_front v hw hall hS)]
  have hsplit : '<' :: (w ++ '>' :: v) = ('<' :: (w ++ ['>'])) ++ v := by
    simp
  have hlen : w.length + 2 = ('<' :: (w ++ ['>'])).length := by
    simp [List.length_append]
  rw [hsplit, hlen, List.drop_left]

/-! ### C1 -/

/-- C1 (counterexample): the claim says a tag such as `<table>` — whose
name starts with neither `a` nor `i` — is removed, but the regex class
`[^ai <>]+` forbids `a` anywhere in the tag body, so `<table>` is not
matched and `clearText` returns it unchanged (in particular, not the empty
string the claim demands). -/
theorem clearText_table_cex :
    clearText "<table>" = "<table>" ∧ clearText "<table>" ≠ "" := by
  constructor
  · decide
  · decide

/-- C1 (amended): `clearText` removes every occurrence of (a) a whole
verse-number marker `<S>` + digits + `</S>` and (b) a whole tag `<` + body
+ `>` whose nonempty body contains none of the characters `a`, `i`, space,
`<`, `>` — not merely those whose name does not start with `a` or `i`: a
tag such as `<table>` is preserved (see the counterexample).  "Removes"
means splicing the substring into any context leaves `clearText`
unchanged, under the two overlap provisos the leftmost-first replacement
forces: no match may begin in the preceding context and reach into the
occurrence (guaranteed when the prefix has no `<`), and — for the single
tag `<S>` — the following context must not continue it into a longer
`<S>digits</S>` marker, which the scanner would remove instead. -/
theorem clearText_removes_markers_and_bare_tags :
    (∀ u ds v : List Char, '<' ∉ u → ds ≠ [] →
      (∀ c ∈ ds, c.isDigit = true) →
      clearText (String.mk
          (u ++ ('<' :: 'S' :: '>' :: (ds ++ ['<', '/', 'S', '>'])) ++ v)) =
        clearText (String.mk (u ++ v))) ∧
    (∀ u w v : List Char, '<' ∉ u → w ≠ [] →
      (∀ c ∈ w, isTagChar c = true) →
      (w = ['S'] → v.takeWhile Char.isDigit = []) →
      clearText (String.mk (u ++ ('<' :: (w ++ ['>'])) ++ v)) =
        clearText (String.mk (u ++ v))) := by
  constructor
  · intro u ds v hu hds hall
    have h1 := stripTags_splice_marker v hu hds hall
    have h2 := stripTags_append_of_no_lt hu v
    show String.mk (collapseSpace (trimSpace
        (stripTags (u ++ ('<' :: 'S' :: '>' :: (ds ++ ['<', '/', 'S', '>'])) ++ v)))) =
      String.mk (collapseSpace (trimSpace (stripTags (u ++ v))))
    rw [h1, h2]
  · intro u w v hu hw hall hS
    have h1 := stripTags_splice_tag v hu hw hall hS
    have h2 := stripTags_append_of_no_lt hu v
    show String.mk (collapseSpace (trimSpace
        (stripTags (u ++ ('<' :: (w ++ ['>'])) ++ v)))) =
      String.mk (collapseSpace (trimSpace (stripTags (u ++ v))))
    rw [h1, h2]

/-- C1 (witness): the amended removal law at concrete embedded occurrences:
the tag `<b>` inside `x<b>y` and the marker `<S>1</S>` inside
`x<S>1</S>y`, each equivalent to normalizing `xy`. -/
theorem clearText_removes_markers_and_bare_tags_witness :
    clearText (String.mk
        ("x".data ++ ('<' :: (['b'] ++ ['>'])) ++ "y".data)) =
      clearText (String.mk ("x".data ++ "y".data)) ∧
    clearText (String.mk
        ("x".data ++ ('<' :: 'S' :: '>' :: (['1'] ++ ['<', '/', 'S', '>'])) ++
          "y".data)) =
      clearText (String.mk ("x".data ++ "y".data)) := by
  constructor
  · exact clearText_removes_markers_and_bare_tags.2 "x".data ['b'] "y".data
      (by decide) (by decide) (by decide) (by decide)
  · exact clearText_removes_markers_and_bare_tags.1 "x".data ['1'] "y".data
      (by decide) (by decide) (by decide)

/-! ### Shape of successful matches -/

theorem matchMarker_shape {s : List Char} {n : Nat}
    (h : matchMarker s = some n) :
    ∃ ds rest, s = '<' :: 'S' :: '>' :: (ds ++ '<' :: '/' :: 'S' :: '>' :: rest) ∧
      ds ≠ [] ∧ (∀ c ∈ ds, c.isDigit = true) ∧ n = 3 + ds.length + 4 := by
  unfold matchMarker at h
  split at h
  · next c1 c2 c3 t =>
    split at h
    · next hcond =>
      obtain ⟨rfl, rfl, rfl⟩ := hcond
      split at h
      · next d ds' e1 e2 e3 e4 tail htake hdrop =>
        split at h
        · next hcond2 =>
          obtain ⟨rfl, rfl, rfl, rfl⟩ := hcond2
          injection h with h
          refine ⟨d :: ds', tail, ?_, by simp, ?_, h.symm⟩
          · have ht : t = (d :: ds') ++ ('<' :: '/' :: 'S' :: '>' :: tail) := by
              conv_lhs => rw [← List.takeWhile_append_dropWhile Char.isDigit t]
              rw [htake, hdrop]
            rw [ht]
          · intro c hc
            exact List.mem_takeWhile_imp (htake ▸ hc)
        · exact absurd h (by simp)
      · exact absurd h (by simp)
    · exact absurd h (by simp)
  · exact absurd h (by simp)

theorem matchTag_shape {s : List Char} {n : Nat} (h : matchTag s = some n) :
    ∃ w rest, s = '<' :: (w ++ '>' :: rest) ∧ w ≠ [] ∧
      (∀ c ∈ w, isTagChar c = true) ∧ n = w.length + 2 := by
  unfold matchTag at h
  split at h
  · next c1 t =>
    split at h
    · next hcond =>
      subst hcond
      split at h
      · next c cs d tail htake hdrop =>
        split at h
        · next hcond2 =>
          subst hcond2
          injection h with h
          refine ⟨c :: cs, tail, ?_, by simp, ?_, h.symm⟩
          · have ht : t = (c :: cs) ++ ('>' :: tail) := by
              conv_lhs => rw [← List.takeWhile_append_dropWhile isTagChar t]
              rw [htake, hdrop]
            rw [ht]
          · intro x hx
            exact List.mem_takeWhile_imp (htake ▸ hx)
        · exact absurd h (by simp)
      · exact absurd h (by simp)
    · exact absurd h (by simp)
  · exact absurd h (by simp)

/-! ### C9 -/

/-- C9: every substring the replacement pass removes is either a whole
verse-number marker `<S>digits</S>` or a whole bare tag `<`+body+`>` whose
nonempty body contains none of `a`, `i`, space, `<`, `>`; in particular no
removed substring contains a space, so any tag carrying an attribute is
never matched. -/
theorem matchAt_characterization (s : List Char) (n : Nat)
    (h : matchAt s = some n) :
    (isMarkerSub (s.take n) || isBareTagSub (s.take n)) = true ∧
    ' ' ∉ s.take n := by
  unfold matchAt at h
  split at h
  · next m heq =>
    injection h with h
    subst h
    obtain ⟨ds, rest, rfl, hne, hdig, rfl⟩ := matchMarker_shape heq
    have htw := takeWhile_append_stop (p := Char.isDigit) (b := '<')
      (v := ['/', 'S', '>']) (by decide) hdig
    have htake4 :
        ('<' :: 'S' :: '>' :: (ds ++ '<' :: '/' :: 'S' :: '>' :: rest)).take
            (3 + ds.length + 4) =
          '<' :: 'S' :: '>' :: (ds ++ ['<', '/', 'S', '>']) := by
      rw [show 3 + ds.length + 4 = ds.length + 4 + 1 + 1 + 1 from by omega,
        List.take_succ_cons, List.take_succ_cons, List.take_succ_cons,
        List.take_append]
      simp
    rw [htake4]
    constructor
    · have h1 : isMarkerSub ('<' :: 'S' :: '>' :: (ds ++ ['<', '/', 'S', '>'])) = true := by
        simp only [isMarkerSub, htw.1, htw.2]
        simp [hne]
      rw [h1]
      rfl
    · intro hmem
      simp only [List.mem_cons, List.mem_append] at hmem
      rcases hmem with h1 | h1 | h1 | h1 | h1
      · exact absurd h1 (by decide)
      · exact absurd h1 (by decide)
      · exact absurd h1 (by decide)
      · have := hdig ' ' h1
        exact absurd this (by decide)
      · exact absurd h1 (by decide)
  · obtain ⟨w, rest, rfl, hne, htag, rfl⟩ := matchTag_shape h
    have htw := takeWhile_append_stop (p := isTagChar) (b := '>')
      (v := []) (by decide) htag
    have htake1 :
        ('<' :: (w ++ '>' :: rest)).take (w.length + 2) = '<' :: (w ++ ['>']) := by
      rw [show w.length + 2 = w.length + 1 + 1 from by omega,
        List.take_succ_cons, List.take_append]
      simp
    rw [htake1]
    constructor
    · have h1 : isBareTagSub ('<' :: (w ++ ['>'])) = true := by
        simp only [isBareTagSub, htw.1, htw.2]
        simp [hne]
      rw [h1]
      simp
    · intro hmem
      simp only [List.mem_cons, List.mem_append] at hmem
      rcases hmem with h1 | h1 | h1
      · exact absurd h1 (by decide)
      · have := isTagChar_spec (htag ' ' h1)
        exact absurd rfl this.2.2.1
      · exact absurd h1 (by decide)

/-- C9 (witness): the characterization at the concrete input `"<b>x"`,
where the match at the head is the bare tag `<b>` of length 3. -/
theorem matchAt_characterization_witness :
    (isMarkerSub ((['<', 'b', '>', 'x'] : List Char).take 3) ||
      isBareTagSub ((['<', 'b', '>', 'x'] : List Char).take 3)) = true ∧
    ' ' ∉ (['<', 'b', '>', 'x'] : List Char).take 3 :=
  matchAt_characterization ['<', 'b', '>', 'x'] 3 (by decide)

/-! ### Path parsing -/

theorem splitSlash_ne_nil : ∀ l : List Char, splitSlash l ≠ [] := by
  intro l
  cases l with
  | nil => simp [splitSlash]
  | cons c cs =>
    unfold splitSlash
    cases splitSlash cs with
    | nil => simp
    | cons h t =>
      by_cases hc : c == '/'
      · simp [hc]
      · simp [hc]

theorem splitSlash_cons_eq (c : Char) (v : List Char) :
    splitSlash (c :: v) =
      match splitSlash v with
      | [] => [[c]]
      | h :: t => if c == '/' then [] :: h :: t else (c :: h) :: t := rfl

theorem splitSlash_cons_slash (v : List Char) :
    splitSlash ('/' :: v) = [] :: splitSlash v := by
  rw [splitSlash_cons_eq]
  cases hv : splitSlash v with
  | nil => exact absurd hv (splitSlash_ne_nil v)
  | cons h t => simp

theorem splitSlash_cons_other {c : Char} (hc : c ≠ '/') (v : List Char) :
    splitSlash (c :: v) =
      match splitSlash v with
      | [] => [[c]]
      | h :: t => (c :: h) :: t := by
  rw [splitSlash_cons_eq]
  cases splitSlash v with
  | nil => rfl
  | cons h t => simp [hc]

theorem splitSlash_eq_single : ∀ {u : List Char}, '/' ∉ u →
    splitSlash u = [u] := by
  intro u
  induction u with
  | nil => intro _; rfl
  | cons a t ih =>
    intro h
    have ha : a ≠ '/' := fun hh => h (hh ▸ List.mem_cons_self a t)
    have ht := ih (fun hh => h (List.mem_cons_of_mem a hh))
    rw [splitSlash_cons_other ha, ht]

theorem splitSlash_append {v : List Char} :
    ∀ {u : List Char}, '/' ∉ u →
      splitSlash (u ++ '/' :: v) = u :: splitSlash v := by
  intro u
  induction u with
  | nil => intro _; exact splitSlash_cons_slash v
  | cons a t ih =>
    intro h
    have ha : a ≠ '/' := fun hh => h (hh ▸ List.mem_cons_self a t)
    have ht := ih (fun hh => h (List.mem_cons_of_mem a hh))
    rw [List.cons_append, splitSlash_cons_other ha, ht]

theorem getLast?_cons_ne {a : Char} {l : List Char} (h : l ≠ []) :
    (a :: l).getLast? = l.getLast? := by
  cases l with
  | nil => exact absurd rfl h
  | cons b t => exact List.getLast?_cons_cons ..

theorem mem_of_getLast?_eq {l : List Char} {z : Char}
    (h : l.getLast? = some z) : z ∈ l := by
  obtain ⟨hne, heq⟩ := List.mem_getLast?_eq_getLast (show z ∈ l.getLast? from h)
  exact heq ▸ List.getLast_mem hne

/-- Parsing the concrete request path `/get-random-verse/{name}` for a
slash-free nonempty `name` yields exactly the two expected segments. -/
theorem handler_parts {name : String} (hne : name.data ≠ [])
    (hn : '/' ∉ name.data) :
    splitSlash (trimSlash ("/get-random-verse/" ++ name).data) =
      ["get-random-verse".data, name.data] := by
  have hdata : ("/get-random-verse/" ++ name).data =
      '/' :: ("get-random-verse".data ++ ('/' :: name.data)) := by
    rw [String.data_append]
    rfl
  have hP : '/' ∉ "get-random-verse".data := by decide
  have h1 : ("get-random-verse".data ++ ('/' :: name.data)).dropWhile isSlash =
      "get-random-verse".data ++ ('/' :: name.data) := by
    rw [show "get-random-verse".data ++ ('/' :: name.data) =
      'g' :: ("et-random-verse".data ++ ('/' :: name.data)) from rfl]
    rw [List.dropWhile_cons]
    simp [isSlash]
  have hz : ∀ c, ("get-random-verse".data ++ ('/' :: name.data)).reverse.head? =
      some c → isSlash c = false := by
    intro c hc
    rw [List.head?_reverse] at hc
    rw [List.getLast?_append, getLast?_cons_ne hne] at hc
    have hcmem : c ∈ name.data := by
      cases hl : name.data.getLast? with
      | none =>
        rw [List.getLast?_eq_none_iff] at hl
        exact absurd hl hne
      | some z =>
        rw [hl] at hc
        have hzc : z = c := by simpa using hc
        subst hzc
        exact mem_of_getLast?_eq hl
    have : c ≠ '/' := fun hh => hn (hh ▸ hcmem)
    simp [isSlash, this]
  have h2 : ("get-random-verse".data ++ ('/' :: name.data)).reverse.dropWhile
      isSlash = ("get-random-verse".data ++ ('/' :: name.data)).reverse :=
    dropWhile_eq_self_of_head hz
  have htrim : trimSlash ("/get-random-verse/" ++ name).data =
      "get-random-verse".data ++ ('/' :: name.data) := by
    unfold trimSlash
    rw [hdata, List.dropWhile_cons]
    simp only [show isSlash '/' = true from rfl, if_true]
    rw [h1, h2, List.reverse_reverse]
  rw [htrim, splitSlash_append hP, splitSlash_eq_single hn]

/-- On the path `/get-random-verse/{name}` the handler reduces to the
post-parsing body applied to `name`. -/
theorem getRandomVerseHandler_on_name (reg : List (String × String))
    (pool : List (String × DbResult)) {name : String} (hne : name.data ≠ [])
    (hn : '/' ∉ name.data) :
    getRandomVerseHandler reg pool ("/get-random-verse/" ++ name) =
      handleTranslation reg pool name := by
  unfold getRandomVerseHandler
  rw [handler_parts hne hn]

/-! ### Association list lookup -/

theorem alookup_isSome_iff {α : Type} (m : List (String × α)) (k : String) :
    (alookup m k).isSome = true ↔ k ∈ m.map Prod.fst := by
  induction m with
  | nil => simp [alookup]
  | cons p t ih =>
    obtain ⟨k2, v⟩ := p
    by_cases hk : k2 = k
    · subst hk
      simp [alookup]
    · have hk' : (k2 == k) = false := by
        simp [hk]
      have hk2 : ¬(k = k2) := fun h => hk h.symm
      simp [alookup, hk', ih, hk2]

theorem not_mem_map_fst_of_alookup_none {α : Type}
    {m : List (String × α)} {k : String} (h : alookup m k = none) :
    k ∉ m.map Prod.fst := by
  intro hmem
  rw [← alookup_isSome_iff] at hmem
  rw [h] at hmem
  simp at hmem

/-! ### Handler case lemmas -/

theorem handleTranslation_404 {reg : List (String × String)}
    {pool : List (String × DbResult)} {name : String}
    (hreg : alookup reg name = none) :
    handleTranslation reg pool name =
      (respondWithError
        ("Translation " ++ squote ++ name ++ squote ++ " not found") 404,
        []) := by
  unfold handleTranslation
  rw [hreg]

theorem handleTranslation_503 {reg : List (String × String)}
    {pool : List (String × DbResult)} {name loc : String}
    (hreg : alookup reg name = some loc) (hpool : alookup pool name = none) :
    handleTranslation reg pool name =
      (respondWithError
        ("Database for translation " ++ squote ++ name ++ squote ++
          " is not available") 503, [DbAccess.poolLookup name]) := by
  unfold handleTranslation
  rw [hreg, hpool]

theorem handleTranslation_meta (reg : List (String × String))
    (pool : List (String × DbResult)) (name : String) :
    (handleTranslation reg pool name).1.contentType = "application/json" ∧
    ((handleTranslation reg pool name).1.escapeHTML = false ↔
      (handleTranslation reg pool name).1.status = 200) := by
  unfold handleTranslation
  cases alookup reg name with
  | none => simp [respondWithError]
  | some loc =>
    cases alookup pool name with
    | none => simp [respondWithError]
    | some r =>
      cases r with
      | failure m => simp [respondWithError]
      | row bn ch vs tx sn ln => simp

theorem getRandomVerseHandler_meta (reg : List (String × String))
    (pool : List (String × DbResult)) (path : String) :
    (getRandomVerseHandler reg pool path).1.contentType = "application/json" ∧
    ((getRandomVerseHandler reg pool path).1.escapeHTML = false ↔
      (getRandomVerseHandler reg pool path).1.status = 200) := by
  unfold getRandomVerseHandler
  cases splitSlash (trimSlash path.data) with
  | nil => simp [respondWithError]
  | cons a rest =>
    cases rest with
    | nil => simp [respondWithError]
    | cons b rest2 =>
      cases rest2 with
      | nil => exact handleTranslation_meta reg pool (String.mk b)
      | cons c rest3 => simp [respondWithError]

/-! ### C4 -/

/-- C4: for a translation identifier absent from the registry the handler
answers `404` with an `error`-keyed body and performs no database access
(empty access trace: neither a pool lookup nor a query). -/
theorem getRandomVerse_unknown_404 (reg : List (String × String))
    (pool : List (String × DbResult)) (name : String)
    (hne : name.data ≠ []) (hn : '/' ∉ name.data)
    (hreg : alookup reg name = none) :
    (getRandomVerseHandler reg pool ("/get-random-verse/" ++ name)).1.status
        = 404 ∧
    (∃ m, (getRandomVerseHandler reg pool
        ("/get-random-verse/" ++ name)).1.body = RespBody.errorObj m) ∧
    (getRandomVerseHandler reg pool ("/get-random-verse/" ++ name)).2 = [] := by
  rw [getRandomVerseHandler_on_name reg pool hne hn, handleTranslation_404 hreg]
  exact ⟨rfl, ⟨_, rfl⟩, rfl⟩

/-- C4 (witness): the concrete unknown identifier `XYZ` against the static
registry. -/
theorem getRandomVerse_unknown_404_witness :
    (getRandomVerseHandler translations [] ("/get-random-verse/" ++ "XYZ")).1.status
        = 404 ∧
    (∃ m, (getRandomVerseHandler translations []
        ("/get-random-verse/" ++ "XYZ")).1.body = RespBody.errorObj m) ∧
    (getRandomVerseHandler translations [] ("/get-random-verse/" ++ "XYZ")).2 = [] :=
  getRandomVerse_unknown_404 translations [] "XYZ" (by decide) (by decide)
    (by decide)

/-! ### C3 -/

/-- C3: for an identifier present in the registry but absent from the pool
the handler answers `503` with an `error`-keyed body, and the health
endpoint reports exactly the pooled identifiers — in particular it omits
this one. -/
theorem getRandomVerse_unavailable_503 (reg : List (String × String))
    (pool : List (String × DbResult)) (name loc : String)
    (hne : name.data ≠ []) (hn : '/' ∉ name.data)
    (hreg : alookup reg name = some loc) (hpool : alookup pool name = none) :
    (getRandomVerseHandler reg pool ("/get-random-verse/" ++ name)).1.status
        = 503 ∧
    (∃ m, (getRandomVerseHandler reg pool
        ("/get-random-verse/" ++ name)).1.body = RespBody.errorObj m) ∧
    (healthHandler pool).body = RespBody.healthObj "ok" (pool.map Prod.fst) ∧
    name ∉ pool.map Prod.fst ∧
    (∀ n, n ∈ pool.map Prod.fst ↔ (alookup pool n).isSome = true) := by
  rw [getRandomVerseHandler_on_name reg pool hne hn,
    handleTranslation_503 hreg hpool]
  exact ⟨rfl, ⟨_, rfl⟩, rfl, not_mem_map_fst_of_alookup_none hpool,
    fun n => (alookup_isSome_iff pool n).symm⟩

/-- C3 (witness): `RST` is registered but, with only `KJV` pooled, the
request answers `503` and the health list omits `RST`. -/
theorem getRandomVerse_unavailable_503_witness :
    (getRandomVerseHandler translations
      [("KJV", DbResult.row 1 1 1 "In the beginning" "Gen" "Genesis")]
      ("/get-random-verse/" ++ "RST")).1.status = 503 ∧
    (∃ m, (getRandomVerseHandler translations
      [("KJV", DbResult.row 1 1 1 "In the beginning" "Gen" "Genesis")]
      ("/get-random-verse/" ++ "RST")).1.body = RespBody.errorObj m) ∧
    (healthHandler
      [("KJV", DbResult.row 1 1 1 "In the beginning" "Gen" "Genesis")]).body =
      RespBody.healthObj "ok"
        ([("KJV", DbResult.row 1 1 1 "In the beginning" "Gen" "Genesis")].map
          Prod.fst) ∧
    "RST" ∉ ([("KJV", DbResult.row 1 1 1 "In the beginning" "Gen" "Genesis")].map
        Prod.fst) ∧
    (∀ n, n ∈ ([("KJV", DbResult.row 1 1 1 "In the beginning" "Gen" "Genesis")].map
        Prod.fst) ↔
      (alookup [("KJV", DbResult.row 1 1 1 "In the beginning" "Gen" "Genesis")]
        n).isSome = true) :=
  getRandomVerse_unavailable_503 translations
    [("KJV", DbResult.row 1 1 1 "In the beginning" "Gen" "Genesis")]
    "RST" "assets/RST+.Sqlite3" (by decide) (by decide) (by decide) (by decide)

/-! ### C5 -/

/-- C5 (counterexample): HTML escaping is not disabled in every response:
the `503` error response (and likewise the health response) is encoded by a
fresh `json.NewEncoder` on which `SetEscapeHTML(false)` is never called, so
escaping stays enabled there. -/
theorem response_escaping_cex :
    (getRandomVerseHandler translations [] "/get-random-verse/KJV").1.escapeHTML
        = true ∧
    (healthHandler []).escapeHTML = true := by
  constructor
  · decide
  · rfl

/-- C5 (amended): every response (verse, every error, health) declares the
JSON content type, but HTML escaping of string payloads is disabled only on
the verse success response (status `200` of the verse handler); every error
response and the health response keep the encoder default, i.e. escaping
enabled. -/
theorem responses_json_escaping :
    (∀ m c, (respondWithError m c).contentType = "application/json" ∧
      (respondWithError m c).escapeHTML = true) ∧
    (∀ pool, (healthHandler pool).contentType = "application/json" ∧
      (healthHandler pool).escapeHTML = true) ∧
    (∀ reg pool path,
      (getRandomVerseHandler reg pool path).1.contentType = "application/json") ∧
    (∀ reg pool path,
      (getRandomVerseHandler reg pool path).1.status = 200 →
        (getRandomVerseHandler reg pool path).1.escapeHTML = false) ∧
    (∀ reg pool path,
      (getRandomVerseHandler reg pool path).1.status ≠ 200 →
        (getRandomVerseHandler reg pool path).1.escapeHTML = true) := by
  refine ⟨fun m c => ⟨rfl, rfl⟩, fun pool => ⟨rfl, rfl⟩,
    fun reg pool path => (getRandomVerseHandler_meta reg pool path).1,
    fun reg pool path h => (getRandomVerseHandler_meta reg pool path).2.mpr h,
    fun reg pool path h => ?_⟩
  cases hE : (getRandomVerseHandler reg pool path).1.escapeHTML with
  | false =>
    exact absurd ((getRandomVerseHandler_meta reg pool path).2.mp hE) h
  | true => rfl

/-- C5 (witness): escaping is off on a concrete successful verse response
and on (i.e. stays enabled for) a concrete `503` error response. -/
theorem responses_json_escaping_witness :
    (getRandomVerseHandler translations
      [("KJV", DbResult.row 1 1 1 "In the beginning" "Gen" "Genesis")]
      "/get-random-verse/KJV").1.escapeHTML = false ∧
    (getRandomVerseHandler translations [] "/get-random-verse/RST").1.escapeHTML
        = true := by
  constructor
  · exact responses_json_escaping.2.2.2.1 translations
      [("KJV", DbResult.row 1 1 1 "In the beginning" "Gen" "Genesis")]
      "/get-random-verse/KJV" (by decide)
  · exact responses_json_escaping.2.2.2.2 translations []
      "/get-random-verse/RST" (by decide)

/-! ### C6 -/

/-- C6 (code bug): with `KJV` opening successfully and `RST` failing at
`sql.Open`, `initDatabases` returns an error, `main` calls `log.Fatalf`,
and `os.Exit` runs before the deferred close loop (which is registered only
after the error check anyway): the `KJV` handle is opened but never closed,
contradicting the spec requirement that handles opened before the failing
attempt are released. -/
theorem mainEvents_leak_on_openFail :
    mainEvents [("KJV", FileStatus.good), ("RST", FileStatus.openFail "disk error")]
        none = [DbEvent.opened "KJV"] ∧
    (mainEvents [("KJV", FileStatus.good), ("RST", FileStatus.openFail "disk error")]
        none).count (DbEvent.closed "KJV") = 0 := by
  constructor
  · rfl
  · rfl

end BibleApi
